import Mathlib

/-!
Verification of the knight's-tour repository against its specification.

The repository has two algorithmic cores:
* `knights_tour_csp.py` — a depth-first backtracking search over assignments
  (lists of board positions) with MRV and LCV candidate ordering; modelled in
  namespace `Csp`.
* `knights_tour_console.py` — a genetic algorithm over 63-gene direction
  sequences with a repairing decoder (`Knight.check_moves`), tournament
  selection, single-point crossover and per-gene mutation; modelled in
  namespace `Console`.

Python machine details are modelled as follows: Python sets are modelled by
lists used only through membership, insertion and removal (so that set-equality
claims become extensional statements about members); Python's stable
`list.sort(key=...)` is modelled by `List.insertionSort` with the reflexive
comparison `key a ≤ key b`, which is the canonical stable ascending sort by
key; Python `%` on a positive modulus agrees with `Int.emod`; calls of
`random.*` are modelled by explicit oracle parameters, one per call site;
exceptions (`ValueError` from `random.sample`) are modelled by `Option`.
-/

namespace Csp

/-- Board positions, pairs of integers as in the source. -/
abbrev Pos := Int × Int

/-- The eight knight-move offsets (`MOVES` in knights_tour_csp.py). -/
def MOVES : List (Int × Int) :=
  [(2, 1), (1, 2), (1, -2), (2, -1), (-2, -1), (-1, -2), (-1, 2), (-2, 1)]

/-- Legal unvisited knight neighbours of `(x, y)` (`get_neighbors`). -/
def get_neighbors (x y : Int) (visited : List Pos) : List Pos :=
  MOVES.filterMap fun m =>
    let nx := x + m.1
    let ny := y + m.2
    if 0 ≤ nx ∧ nx < 8 ∧ 0 ≤ ny ∧ ny < 8 ∧ (nx, ny) ∉ visited then some (nx, ny) else none

/-- Number of legal unvisited onward moves from `(x, y)` (`count_onward_moves`). -/
def count_onward_moves (x y : Int) (visited : List Pos) : Nat :=
  MOVES.countP fun m =>
    let nx := x + m.1
    let ny := y + m.2
    decide (0 ≤ nx ∧ nx < 8 ∧ 0 ≤ ny ∧ ny < 8 ∧ (nx, ny) ∉ visited)

/-- Python's stable `list.sort(key=...)`, modelled as insertion sort with the
reflexive key comparison (any stable ascending sort by key computes this). -/
def sortByKey {α : Type} (key : α → Int) (l : List α) : List α :=
  l.insertionSort (fun a b => key a ≤ key b)

/-- The MRV score the source computes for a candidate: its onward-move count
with the candidate itself added to the visited set (`temp_visited`). -/
def mrv_key (c : Pos) (visited : List Pos) : Nat :=
  count_onward_moves c.1 c.2 (c :: visited)

/-- The `MRV` ordering pass: build `(onward_moves, candidate)` pairs and
stable-sort ascending by the count (`successor_counts.sort(key=item[0])`). -/
def MRV (successors visited : List Pos) : List Pos :=
  let successor_counts := successors.map fun c => (mrv_key c visited, c)
  (sortByKey (fun item => (item.1 : Int)) successor_counts).map fun item => item.2

/-- The LCV score the source computes for a candidate: total onward mobility
summed over the candidate's own legal neighbours, all with the candidate added
to the visited set. -/
def lcv_key (c : Pos) (visited : List Pos) : Nat :=
  let temp_visited := c :: visited
  ((get_neighbors c.1 c.2 temp_visited).map fun n =>
    count_onward_moves n.1 n.2 temp_visited).sum

/-- The `LCV` ordering pass: build `(total_freedom, candidate)` pairs and
stable-sort by negated score (`successor_scores.sort(key=-item[0])`). -/
def LCV (successors visited : List Pos) : List Pos :=
  let successor_scores := successors.map fun c => (lcv_key c visited, c)
  (sortByKey (fun item => -(item.1 : Int)) successor_scores).map fun item => item.2

/-- Successor generation (`successor_fct`), an alias for `get_neighbors`. -/
def successor_fct (x y : Int) (visited : List Pos) : List Pos :=
  get_neighbors x y visited

/-- The candidate loop of `backtracking` (lines 71-76 of the source): try each
candidate in order, appending it to the assignment, recursing through `bt`,
returning the first non-`None` result, and popping the appended position after
a failed recursive call.  The second component of the result is the final
contents of the caller's (mutable) assignment list. -/
def tryCandidates (bt : List Pos → Option (List Pos) × List Pos) :
    List Pos → List Pos → Option (List Pos) × List Pos
  | assignment, [] => (none, assignment)
  | assignment, c :: cs =>
    match bt (assignment ++ [c]) with
    | (some result, a2) => (some result, a2)
    | (none, a2) => tryCandidates bt a2.dropLast cs

/-- The recursive `backtracking` search.  `fuel` bounds the recursion depth so
the model is total; every recursive call grows the assignment by one entry and
the search returns at length 64, so any `fuel` with `64 < fuel + |assignment|`
makes the fuel-exhaustion branch unreachable and the model agrees with the
unbounded Python recursion.  The second component models the final contents of
the mutable assignment list.  A call on an empty assignment is modelled as a
plain failure (Python would raise an `IndexError` on `assignment[-1]`). -/
def backtrackingAux : Nat → List Pos → Option (List Pos) × List Pos
  | 0, assignment => (none, assignment)
  | fuel + 1, assignment =>
    if assignment.length = 64 then (some assignment, assignment)
    else
      match assignment.getLast? with
      | none => (none, assignment)
      | some last =>
        let successors := successor_fct last.1 last.2 assignment
        if successors = [] then (none, assignment)
        else tryCandidates (backtrackingAux fuel) assignment
          (LCV (MRV successors assignment) assignment)

/-- Top-level `backtracking` as called by `main`: fuel 65 suffices for any
start assignment of length at least 1, since depth-`d` recursion happens at
assignment length `d` and the search stops at length 64. -/
def backtracking (assignment : List Pos) : Option (List Pos) :=
  (backtrackingAux 65 assignment).1

section SortLemmas

variable {α : Type}

/-- Key invariant of the stable sort: inserting `a` into a list that is sorted
by key and, on key ties, ordered by `T` — where `a` is `T`-before everything in
the list — preserves that shape.  This is the insertion step of the stability
argument for Python's `list.sort`. -/
theorem orderedInsert_pairwise_key (key : α → Int) (T : α → α → Prop)
    (a : α) (l : List α)
    (hl : l.Pairwise (fun x y => key x < key y ∨ (key x = key y ∧ T x y)))
    (ha : ∀ b ∈ l, T a b) :
    (l.orderedInsert (fun x y => key x ≤ key y) a).Pairwise
      (fun x y => key x < key y ∨ (key x = key y ∧ T x y)) := by
  induction l with
  | nil => simp [List.orderedInsert]
  | cons b bs ih =>
    rw [List.orderedInsert]
    rcases List.pairwise_cons.mp hl with ⟨hb, hbs⟩
    by_cases hab : key a ≤ key b
    · rw [if_pos hab]
      refine List.pairwise_cons.mpr ⟨?_, hl⟩
      intro y hy
      rcases List.mem_cons.mp hy with hy | hy
      · subst hy
        rcases lt_or_eq_of_le hab with h | h
        · exact Or.inl h
        · exact Or.inr ⟨h, ha y (List.mem_cons_self y bs)⟩
      · have hby := hb y hy
        have hbley : key b ≤ key y := by
          rcases hby with h | ⟨h, _⟩
          · exact le_of_lt h
          · exact le_of_eq h
        rcases lt_or_eq_of_le (le_trans hab hbley) with h | h
        · exact Or.inl h
        · exact Or.inr ⟨h, ha y (List.mem_cons_of_mem b hy)⟩
    · rw [if_neg hab]
      refine List.pairwise_cons.mpr ⟨?_, ih hbs (fun c hc => ha c (List.mem_cons_of_mem b hc))⟩
      intro y hy
      rcases (List.mem_orderedInsert _).mp hy with hy | hy
      · subst hy
        exact Or.inl (lt_of_not_le hab)
      · exact hb y hy

/-- Stability of the modelled Python sort: if the input is pairwise `T`, then
the output is sorted ascending by key, with `T` preserved across key ties. -/
theorem sortByKey_pairwise_key (key : α → Int) (T : α → α → Prop) (l : List α)
    (hl : l.Pairwise T) :
    (sortByKey key l).Pairwise
      (fun x y => key x < key y ∨ (key x = key y ∧ T x y)) := by
  unfold sortByKey
  induction l with
  | nil => simp [List.insertionSort]
  | cons a l ih =>
    rcases List.pairwise_cons.mp hl with ⟨ha, hl'⟩
    rw [List.insertionSort]
    exact orderedInsert_pairwise_key key T a _ (ih hl')
      (fun b hb => ha b ((List.mem_insertionSort _).mp hb))

/-- Membership is preserved by the modelled sort. -/
theorem mem_sortByKey (key : α → Int) (l : List α) (x : α) :
    x ∈ sortByKey key l ↔ x ∈ l :=
  List.mem_insertionSort _

theorem pairwise_true (l : List α) : l.Pairwise (fun _ _ => True) := by
  induction l with
  | nil => exact List.Pairwise.nil
  | cons a l ih => exact List.pairwise_cons.mpr ⟨fun _ _ => trivial, ih⟩

end SortLemmas

/-- After the `MRV` pass the candidates are sorted ascending by MRV score. -/
theorem MRV_pairwise (succ v : List Pos) :
    (MRV succ v).Pairwise (fun a b => mrv_key a v ≤ mrv_key b v) := by
  simp only [MRV]
  have h := sortByKey_pairwise_key (fun item : Nat × Pos => (item.1 : Int)) (fun _ _ => True)
    (succ.map fun c => (mrv_key c v, c)) (pairwise_true _)
  refine List.pairwise_map.mpr (List.Pairwise.imp_of_mem ?_ h)
  intro a b hma hmb hr
  have hka : a.1 = mrv_key a.2 v := by
    rcases List.mem_map.mp ((mem_sortByKey _ _ _).mp hma) with ⟨c, _, rfl⟩
    rfl
  have hkb : b.1 = mrv_key b.2 v := by
    rcases List.mem_map.mp ((mem_sortByKey _ _ _).mp hmb) with ⟨c, _, rfl⟩
    rfl
  simp only [] at hr
  rcases hr with hr | ⟨hr, _⟩ <;> omega

/-- The full candidate ordering used by `backtracking` (`MRV` pass followed by
`LCV` pass): sorted primarily by descending LCV score, with ascending MRV score
as the tie-break inherited from the stable sort. -/
theorem LCV_MRV_pairwise (succ v : List Pos) :
    (LCV (MRV succ v) v).Pairwise (fun a b =>
      lcv_key b v < lcv_key a v ∨
        (lcv_key a v = lcv_key b v ∧ mrv_key a v ≤ mrv_key b v)) := by
  simp only [LCV]
  have hin : ((MRV succ v).map fun c => (lcv_key c v, c)).Pairwise
      (fun x y : Nat × Pos => mrv_key x.2 v ≤ mrv_key y.2 v) :=
    List.pairwise_map.mpr (MRV_pairwise succ v)
  have h := sortByKey_pairwise_key (fun item : Nat × Pos => -(item.1 : Int))
    (fun x y => mrv_key x.2 v ≤ mrv_key y.2 v) _ hin
  refine List.pairwise_map.mpr (List.Pairwise.imp_of_mem ?_ h)
  intro a b hma hmb hr
  have hka : a.1 = lcv_key a.2 v := by
    rcases List.mem_map.mp ((mem_sortByKey _ _ _).mp hma) with ⟨c, _, rfl⟩
    rfl
  have hkb : b.1 = lcv_key b.2 v := by
    rcases List.mem_map.mp ((mem_sortByKey _ _ _).mp hmb) with ⟨c, _, rfl⟩
    rfl
  simp only [] at hr
  rcases hr with hr | ⟨hr, ht⟩
  · left
    omega
  · right
    exact ⟨by omega, ht⟩

/-- Membership is preserved by one score-tag-sort-project pass. -/
theorem mem_sortPass (scorer : Pos → Nat) (key : Nat × Pos → Int) (l : List Pos) (c : Pos) :
    c ∈ (sortByKey key (l.map fun d => (scorer d, d))).map (fun item => item.2) ↔ c ∈ l := by
  constructor
  · intro h
    rcases List.mem_map.mp h with ⟨item, hitem, rfl⟩
    rcases List.mem_map.mp ((mem_sortByKey _ _ _).mp hitem) with ⟨d, hd, rfl⟩
    exact hd
  · intro h
    exact List.mem_map.mpr ⟨(scorer c, c),
      (mem_sortByKey _ _ _).mpr (List.mem_map.mpr ⟨c, h, rfl⟩), rfl⟩

/-- Membership is preserved by the two ordering passes. -/
theorem mem_LCV_MRV (succ v : List Pos) (c : Pos) :
    c ∈ LCV (MRV succ v) v ↔ c ∈ succ := by
  simp only [LCV, MRV]
  rw [mem_sortPass, mem_sortPass]

end Csp

/-- Claim C1, counterexample.  At the assignment `[(0,0), (1,2)]` the order in
which `backtracking` tries the successor candidates of `(1, 2)` — the value of
`LCV (MRV successors visited) visited` at lines 68-69 of knights_tour_csp.py —
is `[(3,3), (2,4), (3,1), (0,4), (2,0)]`, whose MRV scores run `7, 7, 5, 3, 3`:
the order is not ascending by onward-move count, so MRV is not the primary sort
key of the order in which backtracking recurses. -/
theorem C1_mrv_not_primary :
    (Csp.LCV (Csp.MRV (Csp.successor_fct 1 2 [((0:Int), (0:Int)), ((1:Int), (2:Int))])
        [((0:Int), (0:Int)), ((1:Int), (2:Int))])
      [((0:Int), (0:Int)), ((1:Int), (2:Int))]
      = [(3, 3), (2, 4), (3, 1), (0, 4), (2, 0)])
    ∧ Csp.mrv_key (3, 3) [((0:Int), (0:Int)), ((1:Int), (2:Int))] = 7
    ∧ Csp.mrv_key (2, 0) [((0:Int), (0:Int)), ((1:Int), (2:Int))] = 3
    ∧ ¬ (Csp.LCV (Csp.MRV (Csp.successor_fct 1 2 [((0:Int), (0:Int)), ((1:Int), (2:Int))])
          [((0:Int), (0:Int)), ((1:Int), (2:Int))])
        [((0:Int), (0:Int)), ((1:Int), (2:Int))]).Pairwise
      (fun a b => Csp.mrv_key a [((0:Int), (0:Int)), ((1:Int), (2:Int))] ≤
        Csp.mrv_key b [((0:Int), (0:Int)), ((1:Int), (2:Int))]) := by
  decide

/-- Claim C1, amended.  For every assignment, the order in which `backtracking`
tries the legal successor candidates (the `MRV` pass followed by the `LCV`
pass) is primarily descending by LCV score (total onward mobility of the
candidate's own legal neighbours); ascending MRV (Warnsdorff) order survives
only as the tie-break for equal LCV scores, because the second stable sort
overrides the first: LCV, not MRV, is the primary sort key. -/
theorem C1_order_lcv_primary_mrv_tiebreak (x y : Int) (assignment : List Csp.Pos) :
    (Csp.LCV (Csp.MRV (Csp.successor_fct x y assignment) assignment) assignment).Pairwise
      (fun a b => Csp.lcv_key b assignment < Csp.lcv_key a assignment ∨
        (Csp.lcv_key a assignment = Csp.lcv_key b assignment ∧
          Csp.mrv_key a assignment ≤ Csp.mrv_key b assignment)) :=
  Csp.LCV_MRV_pairwise _ _

namespace Csp

/-- A position is on the 8x8 board. -/
def inBounds (p : Pos) : Prop := 0 ≤ p.1 ∧ p.1 < 8 ∧ 0 ≤ p.2 ∧ p.2 < 8

instance : DecidablePred inBounds := fun p =>
  inferInstanceAs (Decidable (0 ≤ p.1 ∧ p.1 < 8 ∧ 0 ≤ p.2 ∧ p.2 < 8))

/-- Two positions are one knight move apart (in the source's move direction). -/
def knightStep (p q : Pos) : Prop := (q.1 - p.1, q.2 - p.2) ∈ MOVES

instance : DecidableRel knightStep := fun p q =>
  inferInstanceAs (Decidable ((q.1 - p.1, q.2 - p.2) ∈ MOVES))

/-- A complete knight's tour: 64 pairwise-distinct on-board squares, each
consecutive pair a knight move apart. -/
def isTour (t : List Pos) : Prop :=
  t.length = 64 ∧ t.Nodup ∧ (∀ p ∈ t, inBounds p) ∧ t.Chain' knightStep

/-- Executable chain check used to evaluate `List.Chain knightStep` on
concrete lists. -/
def knightChainB : Pos → List Pos → Bool
  | _, [] => true
  | p, q :: rest => decide (knightStep p q) && knightChainB q rest

theorem knightChainB_iff (p : Pos) (l : List Pos) :
    knightChainB p l = true ↔ List.Chain knightStep p l := by
  induction l generalizing p with
  | nil => simp [knightChainB]
  | cons q rest ih => simp [knightChainB, List.chain_cons, ih]

/-- An assignment that is a prefix of some complete tour. -/
def extendsToTour (a : List Pos) : Prop := ∃ t, isTour t ∧ a <+: t

/-- Membership characterisation of `get_neighbors`. -/
theorem mem_get_neighbors (x y : Int) (v : List Pos) (p : Pos) :
    p ∈ get_neighbors x y v ↔ knightStep (x, y) p ∧ inBounds p ∧ p ∉ v := by
  simp only [get_neighbors, List.mem_filterMap]
  constructor
  · rintro ⟨m, hm, hsome⟩
    by_cases hc : 0 ≤ x + m.1 ∧ x + m.1 < 8 ∧ 0 ≤ y + m.2 ∧ y + m.2 < 8 ∧ (x + m.1, y + m.2) ∉ v
    · rw [if_pos hc] at hsome
      cases hsome
      refine ⟨?_, ⟨hc.1, hc.2.1, hc.2.2.1, hc.2.2.2.1⟩, hc.2.2.2.2⟩
      have : ((x, y) : Pos).1 = x ∧ ((x, y) : Pos).2 = y := ⟨rfl, rfl⟩
      unfold knightStep
      have h1 : x + m.1 - x = m.1 := by omega
      have h2 : y + m.2 - y = m.2 := by omega
      simpa [h1, h2] using hm
    · rw [if_neg hc] at hsome
      cases hsome
  · rintro ⟨hk, hb, hv⟩
    refine ⟨(p.1 - x, p.2 - y), hk, ?_⟩
    have hx : x + (p.1 - x) = p.1 := by omega
    have hy : y + (p.2 - y) = p.2 := by omega
    rw [if_pos]
    · simp [hx, hy]
    · rcases hb with ⟨hb1, hb2, hb3, hb4⟩
      refine ⟨by omega, by omega, by omega, by omega, ?_⟩
      simpa [hx, hy] using hv

/-- A failed candidate loop leaves the assignment as it was on entry, given
that failed recursive calls do. -/
theorem tryCandidates_restore (bt : List Pos → Option (List Pos) × List Pos)
    (hbt : ∀ a, (bt a).1 = none → (bt a).2 = a) :
    ∀ cs a, (tryCandidates bt a cs).1 = none → (tryCandidates bt a cs).2 = a := by
  intro cs
  induction cs with
  | nil => intro a _; rfl
  | cons c cs ih =>
    intro a h
    rcases hb : bt (a ++ [c]) with ⟨r, a2⟩
    rcases r with _ | res
    · have ha2 : a2 = a ++ [c] := by
        have h2 := hbt (a ++ [c])
        rw [hb] at h2
        exact h2 rfl
      simp only [tryCandidates, hb] at h ⊢
      rw [ha2, List.dropLast_concat] at h ⊢
      exact ih a h
    · simp only [tryCandidates, hb] at h
      cases h

/-- Any result the candidate loop returns came from a recursive call. -/
theorem tryCandidates_length (bt : List Pos → Option (List Pos) × List Pos)
    (hbt : ∀ a r, (bt a).1 = some r → r.length = 64) :
    ∀ cs a r, (tryCandidates bt a cs).1 = some r → r.length = 64 := by
  intro cs
  induction cs with
  | nil => intro a r h; cases h
  | cons c cs ih =>
    intro a r h
    rcases hb : bt (a ++ [c]) with ⟨r2, a2⟩
    rcases r2 with _ | res
    · simp only [tryCandidates, hb] at h
      exact ih _ _ h
    · simp only [tryCandidates, hb] at h
      cases Option.some.inj h
      exact hbt (a ++ [c]) r (by rw [hb])

/-- Whenever the search returns an assignment, it has length exactly 64. -/
theorem backtrackingAux_length :
    ∀ fuel a r, (backtrackingAux fuel a).1 = some r → r.length = 64 := by
  intro fuel
  induction fuel with
  | zero => intro a r h; cases h
  | succ fuel ih =>
    intro a r h
    by_cases h64 : a.length = 64
    · simp only [backtrackingAux, if_pos h64] at h
      cases Option.some.inj h
      exact h64
    · simp only [backtrackingAux, if_neg h64] at h
      rcases hl : a.getLast? with _ | last
      · simp only [hl] at h
        cases h
      · simp only [hl] at h
        by_cases hemp : successor_fct last.1 last.2 a = []
        · simp only [if_pos hemp] at h
          cases h
        · simp only [if_neg hemp] at h
          exact tryCandidates_length _ ih _ _ _ h

/-- A failed search leaves the assignment exactly as it was at entry. -/
theorem backtrackingAux_restore :
    ∀ fuel a, (backtrackingAux fuel a).1 = none → (backtrackingAux fuel a).2 = a := by
  intro fuel
  induction fuel with
  | zero => intro a _; rfl
  | succ fuel ih =>
    intro a h
    by_cases h64 : a.length = 64
    · simp only [backtrackingAux, if_pos h64] at h
      cases h
    · simp only [backtrackingAux, if_neg h64] at h ⊢
      rcases hl : a.getLast? with _ | last
      · simp only [hl] at h ⊢
      · simp only [hl] at h ⊢
        by_cases hemp : successor_fct last.1 last.2 a = []
        · simp only [if_pos hemp] at h ⊢
        · simp only [if_neg hemp] at h ⊢
          exact tryCandidates_restore _ ih _ _ h

/-- If some candidate's recursive call succeeds, the candidate loop succeeds. -/
theorem tryCandidates_some (bt : List Pos → Option (List Pos) × List Pos)
    (hres : ∀ a, (bt a).1 = none → (bt a).2 = a) :
    ∀ cs a c, c ∈ cs → (bt (a ++ [c])).1.isSome = true →
      (tryCandidates bt a cs).1.isSome = true := by
  intro cs
  induction cs with
  | nil => intro a c hc; cases hc
  | cons d cs ih =>
    intro a c hc hsome
    rcases hb : bt (a ++ [d]) with ⟨r, a2⟩
    rcases r with _ | res
    · have ha2 : a2 = a ++ [d] := by
        have h2 := hres (a ++ [d])
        rw [hb] at h2
        exact h2 rfl
      simp only [tryCandidates, hb, ha2, List.dropLast_concat]
      rcases List.mem_cons.mp hc with rfl | hc
      · rw [hb] at hsome
        cases hsome
      · exact ih a c hc hsome
    · simp only [tryCandidates, hb, Option.isSome_some]

/-- Completeness of the depth-first search: from any nonempty assignment that
is a prefix of some complete tour, and with enough fuel for the remaining
depth, `backtrackingAux` returns a result.  The search tries every candidate
until one succeeds, failed branches restore the assignment, and the successor
ordering only permutes the candidates, so the tour's own next square is always
available. -/
theorem backtrackingAux_complete :
    ∀ fuel a, a ≠ [] → extendsToTour a → 65 ≤ fuel + a.length →
      (backtrackingAux fuel a).1.isSome = true := by
  intro fuel
  induction fuel with
  | zero =>
    intro a _ hext hfuel
    rcases hext with ⟨t, ht, hpre⟩
    have h1 := hpre.length_le
    have h2 := ht.1
    omega
  | succ fuel ih =>
    intro a ha hext hfuel
    rcases hext with ⟨t, ht, hpre⟩
    by_cases h64 : a.length = 64
    · simp [backtrackingAux, if_pos h64]
    · have hlen : a.length < 64 := by
        have h1 := hpre.length_le
        have h2 := ht.1
        omega
      rcases hpre with ⟨s, rfl⟩
      rcases s with _ | ⟨c, rest⟩
      · rw [List.append_nil] at ht
        exact absurd ht.1 h64
      · have hlast : a.getLast? = some (a.getLast ha) := List.getLast?_eq_getLast a ha
        have hchain := ht.2.2.2
        have hstep : knightStep (a.getLast ha) c := by
          rcases List.chain'_append.mp hchain with ⟨_, _, hmid⟩
          exact hmid _ hlast c rfl
        have hcbound : inBounds c := ht.2.2.1 c (by simp)
        have hcnotin : c ∉ a := by
          have hdisj := (List.nodup_append.mp ht.2.1).2.2
          intro hcmem
          exact hdisj hcmem (List.mem_cons_self c rest)
        have hcs : c ∈ successor_fct (a.getLast ha).1 (a.getLast ha).2 a := by
          rw [successor_fct]
          refine (mem_get_neighbors _ _ _ _).mpr ⟨?_, hcbound, hcnotin⟩
          have heta : ((a.getLast ha).1, (a.getLast ha).2) = a.getLast ha := Prod.mk.eta
          rw [heta]
          exact hstep
        have hemp : ¬ (successor_fct (a.getLast ha).1 (a.getLast ha).2 a = []) :=
          List.ne_nil_of_mem hcs
        simp only [backtrackingAux, if_neg h64, hlast, if_neg hemp]
        refine tryCandidates_some (backtrackingAux fuel) (backtrackingAux_restore fuel) _ _ c
          ((mem_LCV_MRV _ _ _).mpr hcs) ?_
        refine ih (a ++ [c]) (by simp) ⟨a ++ c :: rest, ht, ⟨rest, by simp⟩⟩ ?_
        rw [List.length_append, List.length_singleton]
        omega

/-- At an assignment of length 64 the search succeeds immediately. -/
theorem backtrackingAux_at64 (fuel : Nat) (a : List Pos) (h : a.length = 64) :
    (backtrackingAux (fuel + 1) a).1 = some a := by
  simp [backtrackingAux, if_pos h]

/-- With the fuel used by the top-level entry point, an assignment of length
64 is returned immediately. -/
theorem backtracking_at64 (a : List Pos) (h : a.length = 64) :
    backtracking a = some a :=
  backtrackingAux_at64 64 a h

/-- The top-level search succeeds, with a length-64 result, from any nonempty
assignment that extends to a complete tour. -/
theorem backtracking_some (a : List Pos) (ha : a ≠ []) (hext : extendsToTour a) :
    ∃ r, backtracking a = some r ∧ r.length = 64 := by
  have hlen : 1 ≤ a.length := List.length_pos.mpr ha
  have hsome := backtrackingAux_complete 65 a ha hext (by omega)
  rcases Option.isSome_iff_exists.mp hsome with ⟨r, hr⟩
  exact ⟨r, hr, backtrackingAux_length 65 a r hr⟩

/-- A concrete complete knight's tour from `(0, 0)`, used as the witness that
the start assignment `[(0, 0)]` extends to a tour. -/
def witnessTour : List Pos :=
  [(0, 0), (2, 1), (4, 0), (6, 1), (7, 3), (6, 5), (7, 7), (5, 6), (7, 5), (6, 7),
   (4, 6), (2, 7), (0, 6), (1, 4), (0, 2), (1, 0), (3, 1), (5, 0), (7, 1), (6, 3),
   (4, 2), (3, 0), (1, 1), (0, 3), (1, 5), (0, 7), (2, 6), (4, 7), (6, 6), (7, 4),
   (6, 2), (7, 0), (5, 1), (7, 2), (6, 0), (5, 2), (6, 4), (7, 6), (5, 7), (3, 6),
   (5, 5), (3, 4), (5, 3), (4, 1), (2, 2), (4, 3), (3, 5), (5, 4), (3, 3), (4, 5),
   (3, 7), (1, 6), (2, 4), (1, 2), (2, 0), (0, 1), (1, 3), (3, 2), (4, 4), (2, 3),
   (0, 4), (2, 5), (1, 7), (0, 5)]

theorem witnessTour_spec : isTour witnessTour ∧ [((0:Int), (0:Int))] <+: witnessTour := by
  refine ⟨⟨by decide, by decide, by decide, ?_⟩, ⟨witnessTour.tail, rfl⟩⟩
  exact (knightChainB_iff ((0:Int), (0:Int)) witnessTour.tail).mp (by decide)

end Csp

/-- Claim C3.  The backtracking solver started on `[(0, 0)]` terminates (the
model is a total function) and returns a non-`None` assignment of length
exactly 64; in general every non-`None` result of `backtracking` has length
64, and an assignment of length 64 is returned immediately as the result. -/
theorem C3_backtracking_len64 :
    (∃ r, Csp.backtracking [((0:Int), (0:Int))] = some r ∧ r.length = 64)
    ∧ (∀ fuel a r, (Csp.backtrackingAux fuel a).1 = some r → r.length = 64)
    ∧ (∀ a : List Csp.Pos, a.length = 64 → Csp.backtracking a = some a) :=
  ⟨Csp.backtracking_some [((0:Int), (0:Int))] (by simp)
      ⟨Csp.witnessTour, Csp.witnessTour_spec.1, Csp.witnessTour_spec.2⟩,
   Csp.backtrackingAux_length,
   fun a h64 => Csp.backtracking_at64 a h64⟩

/-- Witness for C3: at the concrete length-64 assignment `witnessTour`, the
solver returns it unchanged. -/
theorem C3_backtracking_len64_witness :
    Csp.backtracking Csp.witnessTour = some Csp.witnessTour :=
  C3_backtracking_len64.2.2 Csp.witnessTour (by decide)

/-- Claim C10.  Whenever the backtracking search fails (returns `None`), the
mutable assignment list is restored to exactly its contents at the call's
entry: every position appended during the failed exploration has been popped
again. -/
theorem C10_failure_restores_assignment (fuel : Nat) (a : List Csp.Pos)
    (h : (Csp.backtrackingAux fuel a).1 = none) :
    (Csp.backtrackingAux fuel a).2 = a :=
  Csp.backtrackingAux_restore fuel a h

/-- Witness for C10: from the assignment `[(1,2), (2,1), (0,0)]` every knight
move from the last square `(0,0)` is already visited, so the search fails and
the assignment is returned unchanged. -/
theorem C10_failure_restores_assignment_witness :
    (Csp.backtrackingAux 1 [((1:Int), (2:Int)), ((2:Int), (1:Int)), ((0:Int), (0:Int))]).1 = none
    ∧ (Csp.backtrackingAux 1
        [((1:Int), (2:Int)), ((2:Int), (1:Int)), ((0:Int), (0:Int))]).2
      = [((1:Int), (2:Int)), ((2:Int), (1:Int)), ((0:Int), (0:Int))] :=
  ⟨by decide, C10_failure_restores_assignment 1 _ (by decide)⟩

namespace Console

/-- Board positions for the genetic-algorithm solver. -/
abbrev Pos := Int × Int

/-- The knight move table `Knight.MOVES`, a dict from direction 1-8 to an
offset.  A direction outside 1-8 raises a `KeyError` in Python; the model
returns a zero offset there, and every theorem restricts genes to [1, 8]. -/
def MOVES (direction : Int) : Int × Int :=
  if direction = 1 then (2, 1)
  else if direction = 2 then (1, 2)
  else if direction = 3 then (1, -2)
  else if direction = 4 then (2, -1)
  else if direction = 5 then (-2, -1)
  else if direction = 6 then (-1, -2)
  else if direction = 7 then (-1, 2)
  else if direction = 8 then (-2, 1)
  else (0, 0)

/-- The mutable decoder state of a `Knight`: current position, path, and
visited set.  The Python set is modelled as a list used only through
membership, insertion and removal. -/
structure KnightS where
  position : Pos
  path : List Pos
  visited : List Pos
deriving DecidableEq

/-- Python `set.add`. -/
def setInsert (p : Pos) (s : List Pos) : List Pos := if p ∈ s then s else p :: s

/-- Python `set.remove`.  The `KeyError` raised on a missing element is
modelled as a no-op; at the one call site (`move_backward`) the element is
present whenever the state is consistent. -/
def setRemove (p : Pos) (s : List Pos) : List Pos := s.erase p

/-- The state `Knight.__init__` sets up: start at `(0,0)`, path `[(0,0)]`,
visited `{(0,0)}`. -/
def knightInit : KnightS := ⟨(0, 0), [(0, 0)], [(0, 0)]⟩

/-- `Knight.move_forward`: the position one step from the current position in
the given direction (no validity check). -/
def move_forward (s : KnightS) (direction : Int) : Pos :=
  (s.position.1 + (MOVES direction).1, s.position.2 + (MOVES direction).2)

/-- `Knight.is_valid_position`: on the board and not yet visited. -/
def is_valid_position (s : KnightS) (pos : Pos) : Bool :=
  decide (0 ≤ pos.1 ∧ pos.1 < 8 ∧ 0 ≤ pos.2 ∧ pos.2 < 8 ∧ pos ∉ s.visited)

/-- `Knight.move_backward`: pop the last path entry, move the position back to
the new last entry, and (when more than one entry remains) remove
`self.position` — the position just moved back TO, not the popped one — from
the visited set, exactly as the source does. -/
def move_backward (s : KnightS) (_direction : Int) : KnightS :=
  if 1 < s.path.length then
    let path' := s.path.dropLast
    let position' := path'.getLast?.getD s.position
    { position := position'
      path := path'
      visited := if 1 < path'.length then setRemove position' s.visited else s.visited }
  else s

/-- One committed move of the decoder: advance the position, append to the
path, add to the visited set. -/
def commit (s : KnightS) (np : Pos) : KnightS :=
  { position := np, path := s.path ++ [np], visited := setInsert np s.visited }

/-- The seven alternative directions the repair loop probes, in the cyclic
order selected by `cycle_forward`: `((original + j - 1) % 8) + 1` ascending or
`((original - j - 1) % 8) + 1` descending, for `j = 1..7`.  Python `%` on the
positive modulus 8 agrees with `Int.emod`. -/
def probe_dirs (cycle_forward : Bool) (original_move : Int) : List Int :=
  (List.range 7).map fun j0 =>
    let j : Int := (j0 : Int) + 1
    if cycle_forward then ((original_move + j - 1) % 8) + 1
    else ((original_move - j - 1) % 8) + 1

/-- The gene loop of `Knight.check_moves`: commit a valid move as is;
otherwise probe the seven other directions in cyclic order, persist the first
valid one into the chromosome and commit it; if none is valid, stop, leaving
the state and the remaining genes untouched.  Returns the final state and the
(possibly repaired) gene list. -/
def check_moves_loop (cycle_forward : Bool) : KnightS → List Int → KnightS × List Int
  | s, [] => (s, [])
  | s, move :: rest =>
    let new_pos := move_forward s move
    if is_valid_position s new_pos then
      let out := check_moves_loop cycle_forward (commit s new_pos) rest
      (out.1, move :: out.2)
    else
      match (probe_dirs cycle_forward move).find?
          (fun t => is_valid_position s (move_forward s t)) with
      | some test_move =>
        let out := check_moves_loop cycle_forward (commit s (move_forward s test_move)) rest
        (out.1, test_move :: out.2)
      | none => (s, move :: rest)

/-- `Knight.check_moves`: reset the state, then run the gene loop.
`cycle_forward` models the one `random.choice([True, False])` per decode. -/
def check_moves (cycle_forward : Bool) (genes : List Int) : KnightS × List Int :=
  check_moves_loop cycle_forward knightInit genes

/-- `Knight.evaluate_fitness`: the fitness is the path length. -/
def evaluate_fitness (s : KnightS) : Nat := s.path.length

/-- The knight-move relation of the move table: `q` is one legal direction
away from `p`. -/
def knightRel (p q : Pos) : Prop :=
  ∃ d : Int, 1 ≤ d ∧ d ≤ 8 ∧ q = (p.1 + (MOVES d).1, p.2 + (MOVES d).2)

end Console

namespace Console

/-- Membership in the modelled `set.add`. -/
theorem mem_setInsert (p q : Pos) (s : List Pos) :
    q ∈ setInsert p s ↔ q = p ∨ q ∈ s := by
  unfold setInsert
  by_cases hp : p ∈ s
  · rw [if_pos hp]
    constructor
    · exact Or.inr
    · rintro (rfl | h)
      exacts [hp, h]
  · rw [if_neg hp]
    exact List.mem_cons

/-- Every direction the repair loop probes is in `[1, 8]`. -/
theorem probe_dirs_bounds (cf : Bool) (m t : Int) (ht : t ∈ probe_dirs cf m) :
    1 ≤ t ∧ t ≤ 8 := by
  unfold probe_dirs at ht
  rcases List.mem_map.mp ht with ⟨j0, _, rfl⟩
  cases cf
  · have h1 := Int.emod_nonneg (m - ((j0 : Int) + 1) - 1) (by norm_num : (8:Int) ≠ 0)
    have h2 := Int.emod_lt_of_pos (m - ((j0 : Int) + 1) - 1) (by norm_num : (0:Int) < 8)
    simp only [Bool.false_eq_true, if_false]
    omega
  · have h1 := Int.emod_nonneg (m + ((j0 : Int) + 1) - 1) (by norm_num : (8:Int) ≠ 0)
    have h2 := Int.emod_lt_of_pos (m + ((j0 : Int) + 1) - 1) (by norm_num : (0:Int) < 8)
    simp only [if_true]
    omega

/-- The invariant of a decoder state: path starts at `(0,0)`, ends at the
current position, is duplicate-free, on the board, chained by knight moves,
and the visited set holds exactly the path entries. -/
def goodState (s : KnightS) : Prop :=
  s.path.head? = some (0, 0)
  ∧ s.path.getLast? = some s.position
  ∧ s.path.Nodup
  ∧ (∀ p ∈ s.path, Csp.inBounds p)
  ∧ s.path.Chain' knightRel
  ∧ (∀ q, q ∈ s.visited ↔ q ∈ s.path)

/-- `Knight.__init__` establishes the invariant. -/
theorem goodState_init : goodState knightInit := by
  refine ⟨rfl, rfl, List.nodup_singleton _, ?_, List.chain'_singleton _, fun q => Iff.rfl⟩
  intro p hp
  rcases List.mem_singleton.mp hp with rfl
  exact ⟨by norm_num, by norm_num, by norm_num, by norm_num⟩

/-- Committing a valid move in a direction in `[1, 8]` preserves the
invariant. -/
theorem goodState_commit (s : KnightS) (d : Int) (hd1 : 1 ≤ d) (hd8 : d ≤ 8)
    (hvalid : is_valid_position s (move_forward s d) = true)
    (hs : goodState s) : goodState (commit s (move_forward s d)) := by
  obtain ⟨hhead, hlast, hnodup, hbounds, hchain, hvis⟩ := hs
  have hval : 0 ≤ (move_forward s d).1 ∧ (move_forward s d).1 < 8
      ∧ 0 ≤ (move_forward s d).2 ∧ (move_forward s d).2 < 8
      ∧ move_forward s d ∉ s.visited := by
    simpa [is_valid_position] using hvalid
  obtain ⟨hb1, hb2, hb3, hb4, hnotvis⟩ := hval
  have hnotpath : move_forward s d ∉ s.path := fun hmem => hnotvis ((hvis _).mpr hmem)
  have hpathne : s.path ≠ [] := by
    intro h
    rw [h] at hhead
    cases hhead
  obtain ⟨t, hpt⟩ : ∃ t, s.path = ((0:Int), (0:Int)) :: t := by
    rcases hp : s.path with _ | ⟨a, t⟩
    · exact absurd hp hpathne
    · rw [hp] at hhead
      cases hhead
      exact ⟨t, rfl⟩
  refine ⟨?_, ?_, ?_, ?_, ?_, ?_⟩
  · simp [commit, hpt]
  · simp [commit, List.getLast?_concat]
  · rw [show (commit s (move_forward s d)).path = s.path ++ [move_forward s d] from rfl,
      List.nodup_append]
    refine ⟨hnodup, List.nodup_singleton _, ?_⟩
    intro x hx hx1
    rcases List.mem_singleton.mp hx1 with rfl
    exact hnotpath hx
  · intro p hp
    rcases List.mem_append.mp hp with hp | hp
    · exact hbounds p hp
    · rcases List.mem_singleton.mp hp with rfl
      exact ⟨hb1, hb2, hb3, hb4⟩
  · rw [show (commit s (move_forward s d)).path = s.path ++ [move_forward s d] from rfl]
    refine List.chain'_append.mpr ⟨hchain, List.chain'_singleton _, ?_⟩
    intro x hx y hy
    have hx2 : x = s.position := by
      rw [hlast] at hx
      cases hx
      rfl
    have hy2 : move_forward s d = y := Option.some.inj (Option.mem_def.mp hy)
    subst hy2
    subst hx2
    exact ⟨d, hd1, hd8, rfl⟩
  · intro q
    rw [show (commit s (move_forward s d)).visited = setInsert (move_forward s d) s.visited
      from rfl]
    rw [mem_setInsert]
    rw [show (commit s (move_forward s d)).path = s.path ++ [move_forward s d] from rfl]
    rw [List.mem_append, List.mem_singleton, hvis q]
    exact or_comm

/-- The gene loop preserves the invariant for in-range genes. -/
theorem goodState_loop (cf : Bool) :
    ∀ genes s, (∀ g ∈ genes, 1 ≤ g ∧ g ≤ 8) → goodState s →
      goodState (check_moves_loop cf s genes).1 := by
  intro genes
  induction genes with
  | nil => intro s _ hs; exact hs
  | cons g rest ih =>
    intro s hg hs
    simp only [check_moves_loop]
    by_cases hv : is_valid_position s (move_forward s g) = true
    · simp only [if_pos hv]
      exact ih _ (fun x hx => hg x (List.mem_cons_of_mem g hx))
        (goodState_commit s g (hg g (List.mem_cons_self g rest)).1
          (hg g (List.mem_cons_self g rest)).2 hv hs)
    · simp only [if_neg hv]
      rcases hf : (probe_dirs cf g).find? (fun t => is_valid_position s (move_forward s t))
        with _ | t
      · simp only [hf]
        exact hs
      · simp only [hf]
        have htmem := List.mem_of_find?_eq_some hf
        have htval : is_valid_position s (move_forward s t) = true := by
          simpa using List.find?_some hf
        rcases probe_dirs_bounds cf g t htmem with ⟨ht1, ht8⟩
        exact ih _ (fun x hx => hg x (List.mem_cons_of_mem g hx))
          (goodState_commit s t ht1 ht8 htval hs)

end Console

/-- Claim C2.  For every 63-gene genome of directions in `[1, 8]` and either
cycle bit, the decoded path starts at `(0,0)`, has pairwise-distinct entries,
stays on the board, and every adjacent pair — including the last one — is one
knight move apart (the claim's allowance for the last pair is not even
needed: the decoder only ever commits validated moves). -/
theorem C2_decoded_path_valid (cycle_forward : Bool) (genes : List Int)
    (h63 : genes.length = 63) (hdir : ∀ g ∈ genes, 1 ≤ g ∧ g ≤ 8) :
    (Console.check_moves cycle_forward genes).1.path.head? = some ((0:Int), (0:Int))
    ∧ (Console.check_moves cycle_forward genes).1.path.Nodup
    ∧ (∀ p ∈ (Console.check_moves cycle_forward genes).1.path, Csp.inBounds p)
    ∧ (Console.check_moves cycle_forward genes).1.path.Chain' Console.knightRel := by
  have h := Console.goodState_loop cycle_forward genes Console.knightInit hdir
    Console.goodState_init
  exact ⟨h.1, h.2.2.1, h.2.2.2.1, h.2.2.2.2.1⟩

/-- Witness for C2 at the all-ones genome with the forward cycle bit. -/
theorem C2_decoded_path_valid_witness :
    (Console.check_moves true (List.replicate 63 1)).1.path.head? = some ((0:Int), (0:Int))
    ∧ (Console.check_moves true (List.replicate 63 1)).1.path.Nodup
    ∧ (∀ p ∈ (Console.check_moves true (List.replicate 63 1)).1.path, Csp.inBounds p)
    ∧ (Console.check_moves true (List.replicate 63 1)).1.path.Chain' Console.knightRel :=
  C2_decoded_path_valid true (List.replicate 63 1) (by decide) (by decide)

namespace Console

/-- The knight obtained by decoding the all-ones genome; a concrete,
reachable, consistent `Knight` state used to exhibit the `move_backward`
bug. -/
def c6knight : KnightS := (check_moves true (List.replicate 63 1)).1

end Console

/-- Claim C6, failing input.  The decoded knight `c6knight` has visited set
and path entries in exact agreement (first two conjuncts); its path ends
`..., (6,2), (7,0)`.  But `move_backward` removes from the visited set the
position moved back TO — `self.position` after the pop — instead of the popped
square: after one `move_backward`, `(6,2)` is on the path but missing from
visited, while the popped `(7,0)` is still in visited though off the path.
The visited set is no longer the set of path entries, contradicting the
documented undo behaviour. -/
theorem C6_move_backward_breaks_visited :
    (∀ q ∈ Console.c6knight.path, q ∈ Console.c6knight.visited)
    ∧ (∀ q ∈ Console.c6knight.visited, q ∈ Console.c6knight.path)
    ∧ ((6, 2) ∈ (Console.move_backward Console.c6knight 1).path
        ∧ ((6:Int), (2:Int)) ∉ (Console.move_backward Console.c6knight 1).visited)
    ∧ (((7:Int), (0:Int)) ∈ (Console.move_backward Console.c6knight 1).visited
        ∧ ((7:Int), (0:Int)) ∉ (Console.move_backward Console.c6knight 1).path) := by
  decide

namespace Console

/-- The decoded path never shrinks as the gene loop proceeds. -/
theorem loop_path_mono (cf : Bool) :
    ∀ genes s, s.path.length ≤ (check_moves_loop cf s genes).1.path.length := by
  intro genes
  induction genes with
  | nil => intro s; exact le_rfl
  | cons g rest ih =>
    intro s
    simp only [check_moves_loop]
    by_cases hv : is_valid_position s (move_forward s g) = true
    · simp only [if_pos hv]
      calc s.path.length ≤ s.path.length + 1 := Nat.le_succ _
        _ = (commit s (move_forward s g)).path.length := by simp [commit]
        _ ≤ _ := ih _
    · simp only [if_neg hv]
      rcases hf : (probe_dirs cf g).find? (fun t => is_valid_position s (move_forward s t))
        with _ | t
      · simp only [hf]
        exact le_rfl
      · simp only [hf]
        calc s.path.length ≤ s.path.length + 1 := Nat.le_succ _
          _ = (commit s (move_forward s t)).path.length := by simp [commit]
          _ ≤ _ := ih _

/-- If the first gene is committable — directly valid or repairable — the
decoded path is strictly longer than the input path. -/
theorem loop_first_step (cf : Bool) (s : KnightS) (g : Int) (rest : List Int)
    (h : is_valid_position s (move_forward s g) = true
      ∨ (probe_dirs cf g).find? (fun t => is_valid_position s (move_forward s t)) ≠ none) :
    s.path.length + 1 ≤ (check_moves_loop cf s (g :: rest)).1.path.length := by
  simp only [check_moves_loop]
  by_cases hv : is_valid_position s (move_forward s g) = true
  · simp only [if_pos hv]
    have hm := loop_path_mono cf rest (commit s (move_forward s g))
    simpa [commit] using hm
  · simp only [if_neg hv]
    rcases hf : (probe_dirs cf g).find? (fun t => is_valid_position s (move_forward s t))
      with _ | t
    · rcases h with h | h
      · exact absurd h hv
      · exact absurd hf h
    · simp only [hf]
      have hm := loop_path_mono cf rest (commit s (move_forward s t))
      simpa [commit] using hm

end Console

/-- Claim C7.  For every 63-gene genome of directions in `[1, 8]` and either
cycle bit, the decode commits at least the first gene — from `(0, 0)`
directions 1 and 2 are legal, the direct move is taken when valid, and the
repair probes all seven other directions — so the decoded path has length at
least 2 and the fitness (the path length) is at least 2. -/
theorem C7_fitness_at_least_two (cycle_forward : Bool) (genes : List Int)
    (h63 : genes.length = 63) (hdir : ∀ g ∈ genes, 1 ≤ g ∧ g ≤ 8) :
    2 ≤ Console.evaluate_fitness (Console.check_moves cycle_forward genes).1 := by
  rcases genes with _ | ⟨g, rest⟩
  · exact absurd h63 (by decide)
  · obtain ⟨hg1, hg8⟩ := hdir g (List.mem_cons_self g rest)
    have hstep : Console.is_valid_position Console.knightInit
          (Console.move_forward Console.knightInit g) = true
        ∨ (Console.probe_dirs cycle_forward g).find?
            (fun t => Console.is_valid_position Console.knightInit
              (Console.move_forward Console.knightInit t)) ≠ none := by
      interval_cases g <;> cases cycle_forward <;> decide
    have h2 := Console.loop_first_step cycle_forward Console.knightInit g rest hstep
    exact h2

/-- Witness for C7 at a genome whose first gene (6) is invalid at the start
and must be repaired. -/
theorem C7_fitness_at_least_two_witness :
    2 ≤ Console.evaluate_fitness (Console.check_moves false (List.replicate 63 6)).1 :=
  C7_fitness_at_least_two false (List.replicate 63 6) (by decide) (by decide)

namespace Console

/-- Re-running the gene loop on the repaired gene list from the same state
reproduces the same final state and gene list: committed genes are valid as
they stand, repaired genes were substituted by valid ones, and a blocked
state stays blocked. -/
theorem loop_idem (cf : Bool) :
    ∀ genes s, check_moves_loop cf s (check_moves_loop cf s genes).2
      = check_moves_loop cf s genes := by
  intro genes
  induction genes with
  | nil => intro s; rfl
  | cons g rest ih =>
    intro s
    by_cases hv : is_valid_position s (move_forward s g) = true
    · have h1 : check_moves_loop cf s (g :: rest)
          = ((check_moves_loop cf (commit s (move_forward s g)) rest).1,
             g :: (check_moves_loop cf (commit s (move_forward s g)) rest).2) := by
        simp only [check_moves_loop, if_pos hv]
      rw [h1]
      simp only [check_moves_loop, if_pos hv]
      rw [ih (commit s (move_forward s g))]
    · rcases hf : (probe_dirs cf g).find? (fun t => is_valid_position s (move_forward s t))
        with _ | t
      · have h1 : check_moves_loop cf s (g :: rest) = (s, g :: rest) := by
          simp only [check_moves_loop, if_neg hv, hf]
        rw [h1]
        exact h1
      · have htval : is_valid_position s (move_forward s t) = true := by
          simpa using List.find?_some hf
        have h1 : check_moves_loop cf s (g :: rest)
            = ((check_moves_loop cf (commit s (move_forward s t)) rest).1,
               t :: (check_moves_loop cf (commit s (move_forward s t)) rest).2) := by
          simp only [check_moves_loop, if_neg hv, hf]
        rw [h1]
        simp only [check_moves_loop, if_pos htval]
        rw [ih (commit s (move_forward s t))]

end Console

/-- Claim C8.  Decoding persists repairs into the genome, and re-decoding the
repaired genome with the same `cycle_forward` bit reproduces exactly the same
state (in particular the same path) and gene list, so the fitness is
unchanged — in particular never reduced. -/
theorem C8_decode_idempotent (cycle_forward : Bool) (genes : List Int)
    (h63 : genes.length = 63) (hdir : ∀ g ∈ genes, 1 ≤ g ∧ g ≤ 8) :
    Console.check_moves cycle_forward (Console.check_moves cycle_forward genes).2
      = Console.check_moves cycle_forward genes
    ∧ Console.evaluate_fitness (Console.check_moves cycle_forward
        (Console.check_moves cycle_forward genes).2).1
      = Console.evaluate_fitness (Console.check_moves cycle_forward genes).1 := by
  have h := Console.loop_idem cycle_forward genes Console.knightInit
  exact ⟨h, congrArg (fun out => Console.evaluate_fitness out.1) h⟩

/-- Witness for C8 at the all-threes genome (gene 3 is invalid at the start,
so the decode repairs genes) with the forward cycle bit. -/
theorem C8_decode_idempotent_witness :
    Console.check_moves true (Console.check_moves true (List.replicate 63 3)).2
      = Console.check_moves true (List.replicate 63 3)
    ∧ Console.evaluate_fitness (Console.check_moves true
        (Console.check_moves true (List.replicate 63 3)).2).1
      = Console.evaluate_fitness (Console.check_moves true (List.replicate 63 3)).1 :=
  C8_decode_idempotent true (List.replicate 63 3) (by decide) (by decide)

namespace Console

/-- `Chromosome.crossover` with the randomly drawn cut point explicit: the
children are prefix-suffix splices of the two parents.  The source never
mutates the parents: the slices build new lists and `Chromosome.__init__`
copies its argument, which the functional model reflects. -/
def crossover (genes partner_genes : List Int) (crossover_point : Nat) :
    List Int × List Int :=
  (genes.take crossover_point ++ partner_genes.drop crossover_point,
   partner_genes.take crossover_point ++ genes.drop crossover_point)

end Console

/-- Claim C9.  For 63-gene parents and any cut point in `[1, 62]`, crossover
returns exactly the two splices `parent1[:p] + parent2[p:]` and
`parent2[:p] + parent1[p:]`, both of length 63; the parents are untouched
(the model is functional because the source operates on fresh copies). -/
theorem C9_crossover_splice (g1 g2 : List Int) (p : Nat)
    (h1 : g1.length = 63) (h2 : g2.length = 63) (hp1 : 1 ≤ p) (hp2 : p ≤ 62) :
    (Console.crossover g1 g2 p).1 = g1.take p ++ g2.drop p
    ∧ (Console.crossover g1 g2 p).2 = g2.take p ++ g1.drop p
    ∧ (Console.crossover g1 g2 p).1.length = 63
    ∧ (Console.crossover g1 g2 p).2.length = 63 := by
  refine ⟨rfl, rfl, ?_, ?_⟩ <;>
    · simp only [Console.crossover, List.length_append, List.length_take, List.length_drop,
        h1, h2]
      omega

/-- Witness for C9 at cut point 5. -/
theorem C9_crossover_splice_witness :
    (Console.crossover (List.replicate 63 1) (List.replicate 63 2) 5).1
      = (List.replicate 63 (1:Int)).take 5 ++ (List.replicate 63 (2:Int)).drop 5
    ∧ (Console.crossover (List.replicate 63 1) (List.replicate 63 2) 5).2
      = (List.replicate 63 (2:Int)).take 5 ++ (List.replicate 63 (1:Int)).drop 5
    ∧ (Console.crossover (List.replicate 63 1) (List.replicate 63 2) 5).1.length = 63
    ∧ (Console.crossover (List.replicate 63 1) (List.replicate 63 2) 5).2.length = 63 :=
  C9_crossover_splice (List.replicate 63 1) (List.replicate 63 2) 5
    (by decide) (by decide) (by decide) (by decide)

namespace Console

/-- A `Knight` as the population operations see it: its chromosome's gene
list, the fields `Knight.__init__` sets, and the `fitness` attribute. -/
structure Knight where
  chromosome : List Int
  position : Pos
  path : List Pos
  visited : List Pos
  fitness : Nat
deriving DecidableEq

/-- A freshly constructed `Knight(chromosome)`: start state and fitness 0. -/
def newKnight (genes : List Int) : Knight := ⟨genes, (0, 0), [(0, 0)], [(0, 0)], 0⟩

/-- Python `max(iterable, key=lambda k: k.fitness)`: the first element of
maximal fitness; `none` models the `ValueError` on an empty iterable. -/
def maxByFitness : List Knight → Option Knight
  | [] => none
  | k :: ks => some (ks.foldl (fun best k2 => if best.fitness < k2.fitness then k2 else best) k)

/-- The elements a `random.sample(pop, size)` call returns, given the sampled
indices; the index list's validity (length `size`, distinct, in range) is a
hypothesis of the theorems. -/
def sampleAt (pop : List Knight) (idxs : List Nat) : List Knight :=
  idxs.filterMap fun i => pop[i]?

/-- `Population.tournament_selection`: two samples of `size` knights, best of
each by fitness.  `random.sample` raises `ValueError` when `size` exceeds the
population size — there is no clamping in the source — modelled as `none`. -/
def tournament_selection (knights : List Knight) (size : Nat)
    (idxs1 idxs2 : List Nat) : Option (Knight × Knight) :=
  if knights.length < size then none
  else
    match maxByFitness (sampleAt knights idxs1), maxByFitness (sampleAt knights idxs2) with
    | some parent1, some parent2 => some (parent1, parent2)
    | _, _ => none

/-- `Chromosome.mutation` with the per-gene random draws explicit: `flags`
holds each gene's `random.random() < mutation_rate` outcome and `vals` the
`random.randint(1, 8)` replacement; the streams cover every gene. -/
def mutation : List Bool → List Int → List Int → List Int
  | f :: fs, v :: vs, g :: gs => (if f then v else g) :: mutation fs vs gs
  | _, _, gs => gs

/-- The random draws of one iteration of `create_new_generation`: the two
tournament samples' index lists, the crossover cut point, and the two
children's mutation draws. -/
structure RandChoices where
  idxs1 : List Nat
  idxs2 : List Nat
  cut : Nat
  flags1 : List Bool
  vals1 : List Int
  flags2 : List Bool
  vals2 : List Int

/-- The `while len(new_knights) < population_size` loop of
`create_new_generation`: select two parents (tournament of the default size
3), crossover, mutate both children, append the first child and — if still
short — the second.  `iter` indexes the oracle; the fuel makes the loop total
(each iteration appends at least one knight, so `population_size + 1` fuel is
never exhausted). -/
def new_generation_loop (population_size : Nat) (knights : List Knight)
    (oracle : Nat → RandChoices) : Nat → Nat → List Knight → Option (List Knight)
  | 0, _, _ => none
  | fuel + 1, iter, acc =>
    if population_size ≤ acc.length then some acc
    else
      match tournament_selection knights 3 (oracle iter).idxs1 (oracle iter).idxs2 with
      | none => none
      | some (parent1, parent2) =>
        let offspring := crossover parent1.chromosome parent2.chromosome (oracle iter).cut
        let m1 := mutation (oracle iter).flags1 (oracle iter).vals1 offspring.1
        let m2 := mutation (oracle iter).flags2 (oracle iter).vals2 offspring.2
        let acc1 := acc ++ [newKnight m1]
        let acc2 := if acc1.length < population_size then acc1 ++ [newKnight m2] else acc1
        new_generation_loop population_size knights oracle fuel (iter + 1) acc2

/-- `Population.create_new_generation`: run the loop from an empty list and
keep `new_knights[:population_size]`.  (The generation counter increment is
omitted: no claim concerns it.) -/
def create_new_generation (population_size : Nat) (knights : List Knight)
    (oracle : Nat → RandChoices) : Option (List Knight) :=
  (new_generation_loop population_size knights oracle (population_size + 1) 0 []).map
    fun l => l.take population_size

/-- The fitness-fold of `maxByFitness` returns its seed or a list element. -/
theorem foldl_pick_mem : ∀ (l : List Knight) (k : Knight),
    l.foldl (fun best k2 => if best.fitness < k2.fitness then k2 else best) k = k
    ∨ l.foldl (fun best k2 => if best.fitness < k2.fitness then k2 else best) k ∈ l := by
  intro l
  induction l with
  | nil => intro k; exact Or.inl rfl
  | cons x l ih =>
    intro k
    simp only [List.foldl_cons]
    rcases ih (if k.fitness < x.fitness then x else k) with h | h
    · rw [h]
      by_cases hx : k.fitness < x.fitness
      · rw [if_pos hx]
        exact Or.inr (List.mem_cons_self x l)
      · rw [if_neg hx]
        exact Or.inl rfl
    · exact Or.inr (List.mem_cons_of_mem x h)

/-- `max(sample, key=fitness)` returns a member of the sample. -/
theorem maxByFitness_mem (l : List Knight) (k : Knight)
    (h : maxByFitness l = some k) : k ∈ l := by
  rcases l with _ | ⟨x, xs⟩
  · cases h
  · cases Option.some.inj h
    rcases foldl_pick_mem xs x with h2 | h2
    · rw [h2]
      exact List.mem_cons_self x xs
    · exact List.mem_cons_of_mem x h2

/-- `max` succeeds on a nonempty sample. -/
theorem maxByFitness_isSome (l : List Knight) (hl : l ≠ []) :
    ∃ k, maxByFitness l = some k := by
  rcases l with _ | ⟨x, xs⟩
  · exact absurd rfl hl
  · exact ⟨_, rfl⟩

/-- Sampled knights are members of the population. -/
theorem sampleAt_subset (pop : List Knight) (idxs : List Nat) :
    ∀ k ∈ sampleAt pop idxs, k ∈ pop := by
  intro k hk
  rcases List.mem_filterMap.mp hk with ⟨i, _, hi⟩
  exact List.getElem?_mem hi

/-- A sample with an in-range first index is nonempty. -/
theorem sampleAt_ne_nil (pop : List Knight) (i : Nat) (idxs : List Nat)
    (hi : i < pop.length) : sampleAt pop (i :: idxs) ≠ [] := by
  simp only [sampleAt, List.filterMap_cons]
  rw [List.getElem?_eq_getElem hi]
  exact List.cons_ne_nil _ _

end Console

/-- Claim C5, counterexample.  Tournament size is not clamped: on the
nonempty population of one knight, `tournament_selection` with the default
size 3 reaches the error branch (`random.sample` raises `ValueError` because
3 exceeds the population size), so selection does not succeed for every
non-empty population. -/
theorem C5_unclamped_tournament_counterexample :
    ([Console.newKnight (List.replicate 63 1)] : List Console.Knight) ≠ []
    ∧ Console.tournament_selection [Console.newKnight (List.replicate 63 1)] 3 [0] [0]
      = none := by
  decide

/-- Claim C5, amended.  `tournament_selection` returns parents that are
members of the current population, and selection succeeds, whenever the
requested size is at least 1 and at most the population size (with valid
sample index lists); the size is never clamped, so for a population smaller
than the tournament size the `random.sample` error branch is reached
instead. -/
theorem C5_tournament_parents_members (knights : List Console.Knight) (size : Nat)
    (idxs1 idxs2 : List Nat) (hpos : 1 ≤ size) (hsz : size ≤ knights.length)
    (h1len : idxs1.length = size) (h1nd : idxs1.Nodup)
    (h1bd : ∀ i ∈ idxs1, i < knights.length)
    (h2len : idxs2.length = size) (h2nd : idxs2.Nodup)
    (h2bd : ∀ i ∈ idxs2, i < knights.length) :
    ∃ p1 p2, Console.tournament_selection knights size idxs1 idxs2 = some (p1, p2)
      ∧ p1 ∈ knights ∧ p2 ∈ knights := by
  rcases idxs1 with _ | ⟨i1, rest1⟩
  · simp at h1len
    omega
  rcases idxs2 with _ | ⟨i2, rest2⟩
  · simp at h2len
    omega
  have hs1 := Console.sampleAt_ne_nil knights i1 rest1 (h1bd i1 (List.mem_cons_self i1 rest1))
  have hs2 := Console.sampleAt_ne_nil knights i2 rest2 (h2bd i2 (List.mem_cons_self i2 rest2))
  rcases Console.maxByFitness_isSome _ hs1 with ⟨p1, hp1⟩
  rcases Console.maxByFitness_isSome _ hs2 with ⟨p2, hp2⟩
  refine ⟨p1, p2, ?_,
    Console.sampleAt_subset _ _ p1 (Console.maxByFitness_mem _ _ hp1),
    Console.sampleAt_subset _ _ p2 (Console.maxByFitness_mem _ _ hp2)⟩
  unfold Console.tournament_selection
  rw [if_neg (by omega)]
  rw [hp1, hp2]

/-- Witness for C5 (amended) on a population of three knights with tournament
size 3. -/
theorem C5_tournament_parents_members_witness :
    ∃ p1 p2, Console.tournament_selection
        [Console.newKnight [1], Console.newKnight [2], Console.newKnight [3]]
        3 [0, 1, 2] [2, 1, 0] = some (p1, p2)
      ∧ p1 ∈ [Console.newKnight [1], Console.newKnight [2], Console.newKnight [3]]
      ∧ p2 ∈ [Console.newKnight [1], Console.newKnight [2], Console.newKnight [3]] :=
  C5_tournament_parents_members _ 3 _ _ (by decide) (by decide) (by decide) (by decide)
    (by decide) (by decide) (by decide) (by decide)

namespace Console

/-- A population member of fitness 50 with the all-ones genome, the claimed
elitism scenario's best individual. -/
def c4best : Knight := ⟨List.replicate 63 1, (0, 0), [(0, 0)], [(0, 0)], 50⟩

/-- A weaker member of the same population. -/
def c4other : Knight := ⟨List.replicate 63 2, (0, 0), [(0, 0)], [(0, 0)], 1⟩

/-- A population of three whose best fitness 50 exceeds the threshold 45. -/
def c4pop : List Knight := [c4best, c4other, c4other]

/-- One iteration's random draws: both tournaments sample the whole
population (so both parents are the best knight), cut point 1, and in each
child the first gene mutates to 2. -/
def c4choices : RandChoices :=
  ⟨[0, 1, 2], [0, 1, 2], 1, true :: List.replicate 62 false, List.replicate 63 2,
    true :: List.replicate 62 false, List.replicate 63 2⟩

/-- The oracle that repeats `c4choices` every iteration. -/
def c4oracle : Nat → RandChoices := fun _ => c4choices

/-- The knight every iteration produces under `c4oracle`: the best genome
with the first gene mutated to 2. -/
def c4child : Knight := newKnight (2 :: List.replicate 62 1)

/-- Every knight `create_new_generation` emits is a freshly constructed
mutated crossover offspring of two tournament-selected parents of some
iteration — there is no elitism branch that copies a knight over. -/
def offspringOf (knights : List Knight) (oracle : Nat → RandChoices) (k : Knight) : Prop :=
  ∃ i p1 p2,
    tournament_selection knights 3 (oracle i).idxs1 (oracle i).idxs2 = some (p1, p2)
    ∧ (k = newKnight (mutation (oracle i).flags1 (oracle i).vals1
          (crossover p1.chromosome p2.chromosome (oracle i).cut).1)
      ∨ k = newKnight (mutation (oracle i).flags2 (oracle i).vals2
          (crossover p1.chromosome p2.chromosome (oracle i).cut).2))

/-- Loop invariant: every knight the generation loop accumulates or returns
is an offspring. -/
theorem new_generation_loop_members (population_size : Nat) (knights : List Knight)
    (oracle : Nat → RandChoices) :
    ∀ fuel iter acc res, (∀ k ∈ acc, offspringOf knights oracle k) →
      new_generation_loop population_size knights oracle fuel iter acc = some res →
      ∀ k ∈ res, offspringOf knights oracle k := by
  intro fuel
  induction fuel with
  | zero =>
    intro iter acc res hacc h
    cases h
  | succ fuel ih =>
    intro iter acc res hacc h
    simp only [new_generation_loop] at h
    by_cases hsize : population_size ≤ acc.length
    · rw [if_pos hsize] at h
      cases Option.some.inj h
      exact hacc
    · rw [if_neg hsize] at h
      rcases hts : tournament_selection knights 3 (oracle iter).idxs1 (oracle iter).idxs2
        with _ | ⟨p1, p2⟩
      · simp only [hts] at h
        cases h
      · simp only [hts] at h
        refine ih (iter + 1) _ res ?_ h
        intro k hk
        have hsplit : k ∈ acc ++ [newKnight (mutation (oracle iter).flags1 (oracle iter).vals1
              (crossover p1.chromosome p2.chromosome (oracle iter).cut).1)]
            ∨ k = newKnight (mutation (oracle iter).flags2 (oracle iter).vals2
              (crossover p1.chromosome p2.chromosome (oracle iter).cut).2) := by
          by_cases hc : (acc ++ [newKnight (mutation (oracle iter).flags1 (oracle iter).vals1
              (crossover p1.chromosome p2.chromosome (oracle iter).cut).1)]).length
              < population_size
          · rw [if_pos hc] at hk
            rcases List.mem_append.mp hk with hk2 | hk2
            · exact Or.inl hk2
            · exact Or.inr (List.mem_singleton.mp hk2)
          · rw [if_neg hc] at hk
            exact Or.inl hk
        rcases hsplit with hk2 | rfl
        · rcases List.mem_append.mp hk2 with hk3 | hk3
          · exact hacc k hk3
          · rcases List.mem_singleton.mp hk3 with rfl
            exact ⟨iter, p1, p2, hts, Or.inl rfl⟩
        · exact ⟨iter, p1, p2, hts, Or.inr rfl⟩

end Console

/-- Claim C4, counterexample.  For the population `c4pop`, whose best
individual has fitness 50 (exceeding the elitism threshold 45 of the
scenario), there is a run of `create_new_generation` — the random draws
`c4oracle` — in which no member of the produced generation carries the best
individual's genome: the source has no elitism step, so nothing guarantees an
unmutated copy of the best genome. -/
theorem C4_no_elitism_counterexample :
    45 < Console.c4best.fitness
    ∧ (∀ k ∈ Console.c4pop, k.fitness ≤ Console.c4best.fitness)
    ∧ Console.create_new_generation 3 Console.c4pop Console.c4oracle
      = some [Console.c4child, Console.c4child, Console.c4child]
    ∧ (∀ k ∈ [Console.c4child, Console.c4child, Console.c4child],
        k.chromosome ≠ Console.c4best.chromosome) := by
  decide

/-- Claim C4, amended.  `create_new_generation` performs no elitism: every
member of the next generation is a freshly constructed knight (fitness 0)
whose genome is a mutated crossover offspring of two tournament-selected
parents; the best individual's genome appears unchanged only if crossover and
mutation happen to reproduce it, never as a guaranteed carried-over member,
regardless of any fitness threshold. -/
theorem C4_next_gen_all_offspring (population_size : Nat) (knights : List Console.Knight)
    (oracle : Nat → Console.RandChoices) (result : List Console.Knight)
    (h : Console.create_new_generation population_size knights oracle = some result) :
    ∀ k ∈ result, Console.offspringOf knights oracle k := by
  unfold Console.create_new_generation at h
  rcases hl : Console.new_generation_loop population_size knights oracle
      (population_size + 1) 0 [] with _ | l
  · rw [hl] at h
    cases h
  · rw [hl, Option.map_some'] at h
    cases Option.some.inj h
    intro k hk
    exact Console.new_generation_loop_members population_size knights oracle
      (population_size + 1) 0 [] l (by intro k2 hk2; cases hk2) hl k
      (List.take_subset _ _ hk)

/-- Witness for C4 (amended): the concrete child of the counterexample run is
an offspring in the characterised sense. -/
theorem C4_next_gen_all_offspring_witness :
    Console.offspringOf Console.c4pop Console.c4oracle Console.c4child :=
  C4_next_gen_all_offspring 3 Console.c4pop Console.c4oracle
    [Console.c4child, Console.c4child, Console.c4child] (by decide)
    Console.c4child (by decide)
